import Mathlib

set_option autoImplicit false

/-!
Verification of the libbitcoin-database hash-indexed record stores:
the history multimap store (`src/history_database.cpp`), the transaction
slab store (`src/databases/transaction_database.cpp`) and the
unspent-transaction value object (`src/unspent_transaction.cpp`).

The generic multimap / slab hash-table machinery the three files are
built on is not part of the given sources, so those parts are modelled
from the specification (each such definition says so in its doc
comment); the three database files themselves are embedded directly.
Byte buffers are `List Nat` with each element one byte; offsets into the
record/slab arenas are list indices (the spec's "stable logical
offsets").
-/

namespace BitcoinDb

/-- Little-endian byte encoding of `n`, `w` bytes wide.  Models
`write_N_bytes_little_endian`: the C++ cast to the `uintN_t` argument
type keeps only the low `8 * w` bits. -/
def leBytes : Nat → Nat → List Nat
  | 0, _ => []
  | w + 1, n => n % 256 :: leBytes w (n / 256)

/-- Little-endian decoding of a byte list (models
`from_little_endian_unsafe`). -/
def leRead : List Nat → Nat
  | [] => 0
  | b :: bs => b + 256 * leRead bs

theorem leBytes_length (w n : Nat) : (leBytes w n).length = w := by
  induction w generalizing n with
  | zero => rfl
  | succ w ih => simp [leBytes, ih]

theorem mod_mul_decomp (n a b : Nat) (ha : 0 < a) :
    n % (a * b) = n % a + a * (n / a % b) := by
  rcases Nat.eq_zero_or_pos b with hb | hb
  · subst hb
    simp only [Nat.mul_zero, Nat.mod_zero]
    exact (Nat.mod_add_div n a).symm
  · have hq : n / a % b < b := Nat.mod_lt _ hb
    have hr : n % a < a := Nat.mod_lt _ ha
    have hlt : n % a + a * (n / a % b) < a * b := by
      have h1 : n % a + a * (n / a % b) < a * (n / a % b + 1) := by
        rw [Nat.mul_succ]; omega
      have h2 : a * (n / a % b + 1) ≤ a * b :=
        Nat.mul_le_mul_left a (Nat.succ_le_of_lt hq)
      omega
    conv_lhs => rw [← Nat.div_add_mod n a, ← Nat.div_add_mod (n / a) b]
    rw [Nat.mul_add, ← Nat.mul_assoc, Nat.add_assoc, Nat.add_comm,
      Nat.add_mul_mod_self_left, Nat.mod_eq_of_lt (by omega)]
    omega

theorem leRead_leBytes (w n : Nat) : leRead (leBytes w n) = n % 256 ^ w := by
  induction w generalizing n with
  | zero => simp [leBytes, leRead, Nat.mod_one]
  | succ w ih =>
    simp only [leBytes, leRead, ih]
    rw [Nat.pow_succ, Nat.mul_comm (256 ^ w) 256,
      mod_mul_decomp n 256 (256 ^ w) (by omega)]

/-- Modelled from the spec: a transaction output/input reference
(`chain::point`, external collaborator): a hash digest plus a 32-bit
index, with the fixed 36-byte wire form `hash(32B) | index(4B LE)`
(spec §6 collaborator contracts). -/
structure Point where
  hash : List Nat
  pointIndex : Nat
deriving DecidableEq, Repr

/-- Modelled from the spec: `point::to_data()`, the fixed 36-byte
encoding `hash(32B) | index(4B LE)`. -/
def Point.toData (p : Point) : List Nat :=
  p.hash ++ leBytes 4 p.pointIndex

/-- Modelled from the spec: `point::factory_from_data` — reads the
32-byte hash then the 4-byte little-endian index from the stream. -/
def Point.fromData (bytes : List Nat) : Point :=
  ⟨bytes.take 32, leRead ((bytes.drop 32).take 4)⟩

/-- Modelled from the spec: the external `point::checksum()`, "a compact
fingerprint of the spent output (not the raw value)" folded into 64 bits
from the point's wire bytes. -/
def Point.checksum (p : Point) : Nat :=
  (p.toData.foldl (fun acc b => acc * 256 + b) 0) % 2 ^ 64

/-- Forward byte-stream serializer state: models `make_serializer`
writing from the start of a freshly allocated row/slab payload. -/
structure Serializer where
  buffer : List Nat
deriving DecidableEq, Repr

/-- `serial.write_byte(b)`: appends one byte (`uint8_t`). -/
def Serializer.writeByte (s : Serializer) (b : Nat) : Serializer :=
  ⟨s.buffer ++ [b % 256]⟩

/-- `serial.write_data(d)`: appends a byte chunk verbatim. -/
def Serializer.writeData (s : Serializer) (d : List Nat) : Serializer :=
  ⟨s.buffer ++ d⟩

/-- `serial.write_4_bytes_little_endian(n)`. -/
def Serializer.write4LE (s : Serializer) (n : Nat) : Serializer :=
  ⟨s.buffer ++ leBytes 4 n⟩

/-- `serial.write_8_bytes_little_endian(n)`. -/
def Serializer.write8LE (s : Serializer) (n : Nat) : Serializer :=
  ⟨s.buffer ++ leBytes 8 n⟩

/-! ## History store (record multimap) -/

/-- One fixed-size multimap row: the `next` chain link (`none` is the
empty sentinel) plus the payload bytes written by the caller's writer. -/
structure HRow where
  next : Option Nat
  payload : List Nat
deriving DecidableEq, Repr

/-- Modelled from the spec: the record-multimap state of the history
store — a key index (hash table from 20-byte address hash to the head
row offset of that key's chain) plus the flat row list.  Row offsets are
indices into `rows`; the key index is kept as its association list
(bucket hashing only distributes keys and does not change the
per-key semantics the claims are about). -/
structure HState where
  keyIndex : List (List Nat × Option Nat)
  rows : List HRow
deriving DecidableEq, Repr

/-- A freshly created (empty) history store. -/
def HState.empty : HState := ⟨[], []⟩

/-- Modelled from the spec: `record_multimap::lookup` — the head row
offset for the key, or the empty sentinel. -/
def HState.lookup (s : HState) (k : List Nat) : Option Nat :=
  match s.keyIndex.find? (fun e => e.1 == k) with
  | none => none
  | some e => e.2

/-- Rewrites (or creates) the key-index entry for `k`. -/
def updateIndex (idx : List (List Nat × Option Nat)) (k : List Nat)
    (v : Option Nat) : List (List Nat × Option Nat) :=
  match idx with
  | [] => [(k, v)]
  | e :: es => if e.1 == k then (k, v) :: es else e :: updateIndex es k v

/-- Modelled from the spec: `record_multimap::add_row` — allocate one
row, write its payload via the writer, set its `next` to the current
head for the key (or the empty sentinel), and point the key index at the
new row. -/
def HState.addRow (s : HState) (k : List Nat)
    (writer : Serializer → Serializer) : HState :=
  ⟨updateIndex s.keyIndex k (some s.rows.length),
    s.rows ++ [⟨s.lookup k, (writer ⟨[]⟩).buffer⟩]⟩

/-- `history_database::add_output` (history_database.cpp:81): appends a
row writing `marker 0 | outpoint(36B) | output_height(4B LE) |
value(8B LE)`. -/
def addOutput (s : HState) (key : List Nat) (outpoint : Point)
    (outputHeight value : Nat) : HState :=
  s.addRow key (fun serial =>
    (((serial.writeByte 0).writeData outpoint.toData).write4LE
      outputHeight).write8LE value)

/-- `history_database::add_spend` (history_database.cpp:96): appends a
row writing `marker 1 | spend point(36B) | spend_height(4B LE) |
previous.checksum()(8B LE)`.  `spend_height` is a `size_t` and is
truncated by the 4-byte write; no assertion guards it. -/
def addSpend (s : HState) (key : List Nat) (previous spend : Point)
    (spendHeight : Nat) : HState :=
  s.addRow key (fun serial =>
    (((serial.writeByte 1).writeData spend.toData).write4LE
      spendHeight).write8LE previous.checksum)

/-- `history_database::delete_last_row` backed by the modelled
`record_multimap::delete_last_row` (spec §4.3): reads the head row for
the key and rewrites the key index to that row's `next`; the assertion
on a key without rows is modelled as `none`. -/
def HState.deleteLastRow (s : HState) (k : List Nat) : Option HState :=
  match s.lookup k with
  | none => none
  | some off =>
    match s.rows.get? off with
    | none => none
    | some row => some ⟨updateIndex s.keyIndex k row.next, s.rows⟩

/-- Output-or-spend tag of a decoded history row (`point_kind`). -/
inductive PointKind where
  | output
  | spend
deriving DecidableEq, Repr

/-- `marker_to_kind` (history_database.cpp:118): asserts the marker byte
is 0 or 1; the assertion firing is modelled as `none`. -/
def markerToKind (marker : Nat) : Option PointKind :=
  if marker = 0 then some PointKind.output
  else if marker = 1 then some PointKind.spend
  else none

/-- One decoded history row (`history_row`): kind, point, height, and
value-or-checksum. -/
structure HistoryRow where
  kind : PointKind
  point : Point
  height : Nat
  value : Nat
deriving DecidableEq, Repr

/-- `read_height` inside `history_database::get`
(history_database.cpp:128): the 4-byte LE field at offset `1 + 36`. -/
def readHeight (payload : List Nat) : Nat :=
  leRead ((payload.drop 37).take 4)

/-- `read_row` inside `history_database::get`
(history_database.cpp:136): marker (via `marker_to_kind`), point,
height, value-or-checksum, decoded sequentially. -/
def readRow (payload : List Nat) : Option HistoryRow :=
  match markerToKind (payload.headD 0) with
  | none => none
  | some kind =>
    some ⟨kind, Point.fromData (payload.drop 1),
      leRead ((payload.drop 37).take 4),
      leRead ((payload.drop 41).take 8)⟩

/-- The chain walk of `history_database::get`
(history_database.cpp:161): stop once `limit` rows are collected (0 =
unlimited); skip rows whose height is below `fromHeight` (0 = no
filter) without stopping the scan; follow `next` links to the empty
sentinel.  `fuel` bounds the walk; on well-formed states it never runs
out (exhaustion yields `none`, like the failed decode assertion). -/
def getLoop (rows : List HRow) (limit fromHeight : Nat) :
    List HistoryRow → Option Nat → Nat → Option (List HistoryRow)
  | _, _, 0 => none
  | acc, none, _ + 1 => some acc
  | acc, some off, fuel + 1 =>
    if limit ≠ 0 ∧ limit ≤ acc.length then some acc
    else
      match rows.get? off with
      | none => none
      | some row =>
        if fromHeight = 0 ∨ fromHeight ≤ readHeight row.payload then
          match readRow row.payload with
          | none => none
          | some r => getLoop rows limit fromHeight (acc ++ [r]) row.next fuel
        else
          getLoop rows limit fromHeight acc row.next fuel

/-- `history_database::get` (history_database.cpp:124): walk the key's
chain head-to-tail collecting decoded rows. -/
def HState.get (s : HState) (k : List Nat) (limit fromHeight : Nat) :
    Option (List HistoryRow) :=
  getLoop s.rows limit fromHeight [] (s.lookup k) (s.rows.length + 1)

/-- One public history-store write, as taken by `add_output` /
`add_spend`. -/
inductive HistOp where
  | out (outpoint : Point) (outputHeight value : Nat)
  | spend (previous spendPoint : Point) (spendHeight : Nat)
deriving DecidableEq, Repr

/-- Dispatches one write to the corresponding database call. -/
def applyOp (s : HState) (k : List Nat) : HistOp → HState
  | .out p h v => addOutput s k p h v
  | .spend prev sp sh => addSpend s k prev sp sh

/-- A sequence of writes, all under the same key. -/
def applyOpsK (s : HState) (k : List Nat) : List HistOp → HState
  | [] => s
  | op :: ops => applyOpsK (applyOp s k op) k ops

/-- A sequence of writes under arbitrary keys. -/
def applyOps (s : HState) : List (List Nat × HistOp) → HState
  | [] => s
  | (k, op) :: ops => applyOps (applyOp s k op) ops

/-- The bounds the C++ argument types (`uint32_t` height and point
index, `uint64_t` value) and the fixed 32-byte digests impose on a
write's arguments before it reaches this layer.  The spend height is a
`size_t` and is deliberately left unconstrained. -/
def HistOp.wfOp : HistOp → Prop
  | .out p h v =>
    p.hash.length = 32 ∧ p.pointIndex < 2 ^ 32 ∧ h < 2 ^ 32 ∧ v < 2 ^ 64
  | .spend _ sp _ =>
    sp.hash.length = 32 ∧ sp.pointIndex < 2 ^ 32

/-- The decoded row a write's record comes back as from `get`. -/
def HistOp.row : HistOp → HistoryRow
  | .out p h v => ⟨PointKind.output, p, h, v⟩
  | .spend prev sp sh => ⟨PointKind.spend, sp, sh % 2 ^ 32, prev.checksum⟩

/-! ## Well-formedness of a history-store state -/

/-- Chain links always point at strictly earlier allocations (rows are
appended and a new row's `next` is the previous head). -/
def nextOk (rows : List HRow) : Prop :=
  ∀ i row j, rows.get? i = some row → row.next = some j → j < i

/-- Every stored row starts with a valid marker byte, as every row is
written by `add_output` or `add_spend`. -/
def rowOk (row : HRow) : Prop :=
  row.payload.headD 0 = 0 ∨ row.payload.headD 0 = 1

/-- Invariant of every state reachable through the public interface:
decreasing chain links, valid markers, and in-range key-index heads. -/
def HState.wf (s : HState) : Prop :=
  nextOk s.rows ∧ (∀ row ∈ s.rows, rowOk row) ∧
    ∀ e ∈ s.keyIndex, ∀ off, e.2 = some off → off < s.rows.length

theorem wf_empty : HState.empty.wf := by
  refine ⟨fun i row j h _ => ?_, fun row h => ?_, fun e h => ?_⟩
  · simp [HState.empty, List.get?] at h
  · simp [HState.empty] at h
  · simp [HState.empty] at h

theorem find?_updateIndex_self (idx : List (List Nat × Option Nat))
    (k : List Nat) (v : Option Nat) :
    (updateIndex idx k v).find? (fun e => e.1 == k) = some (k, v) := by
  induction idx with
  | nil => simp [updateIndex, List.find?]
  | cons e es ih =>
    by_cases h : e.1 == k
    · simp [updateIndex, h, List.find?]
    · simp only [updateIndex, h, if_false, Bool.false_eq_true]
      rw [List.find?_cons_of_neg _ (by simpa using h)]
      exact ih

theorem lookup_updateIndex_self (idx : List (List Nat × Option Nat))
    (rows : List HRow) (k : List Nat) (v : Option Nat) :
    HState.lookup ⟨updateIndex idx k v, rows⟩ k = v := by
  simp [HState.lookup, find?_updateIndex_self]

theorem mem_updateIndex {idx : List (List Nat × Option Nat)}
    {k : List Nat} {v : Option Nat} {e : List Nat × Option Nat}
    (h : e ∈ updateIndex idx k v) : e = (k, v) ∨ e ∈ idx := by
  induction idx with
  | nil => simpa [updateIndex] using h
  | cons e' es ih =>
    by_cases hk : e'.1 == k
    · simp only [updateIndex, hk, if_true] at h
      rcases List.mem_cons.mp h with h | h
      · exact Or.inl h
      · exact Or.inr (List.mem_cons_of_mem _ h)
    · simp only [updateIndex, hk, if_false, Bool.false_eq_true] at h
      rcases List.mem_cons.mp h with h | h
      · exact Or.inr (h ▸ List.mem_cons_self _ _)
      · rcases ih h with h | h
        · exact Or.inl h
        · exact Or.inr (List.mem_cons_of_mem _ h)

theorem lookup_lt_of_wf {s : HState} (hwf : s.wf) {k : List Nat}
    {off : Nat} (h : s.lookup k = some off) : off < s.rows.length := by
  unfold HState.lookup at h
  cases hf : s.keyIndex.find? (fun e => e.1 == k) with
  | none => rw [hf] at h; exact absurd h (by simp)
  | some e =>
    rw [hf] at h
    exact hwf.2.2 e (List.mem_of_find?_eq_some hf) off h

/-- The raw bytes `add_output` lays down in its row. -/
def outPayload (p : Point) (h v : Nat) : List Nat :=
  0 :: (p.toData ++ (leBytes 4 h ++ leBytes 8 v))

/-- The raw bytes `add_spend` lays down in its row. -/
def spendPayload (prev sp : Point) (sh : Nat) : List Nat :=
  1 :: (sp.toData ++ (leBytes 4 sh ++ leBytes 8 prev.checksum))

theorem addOutput_eq (s : HState) (k : List Nat) (p : Point)
    (h v : Nat) :
    addOutput s k p h v =
      ⟨updateIndex s.keyIndex k (some s.rows.length),
        s.rows ++ [⟨s.lookup k, outPayload p h v⟩]⟩ := by
  simp [addOutput, HState.addRow, Serializer.writeByte,
    Serializer.writeData, Serializer.write4LE, Serializer.write8LE,
    outPayload]

theorem addSpend_eq (s : HState) (k : List Nat) (prev sp : Point)
    (sh : Nat) :
    addSpend s k prev sp sh =
      ⟨updateIndex s.keyIndex k (some s.rows.length),
        s.rows ++ [⟨s.lookup k, spendPayload prev sp sh⟩]⟩ := by
  simp [addSpend, HState.addRow, Serializer.writeByte,
    Serializer.writeData, Serializer.write4LE, Serializer.write8LE,
    spendPayload]

/-- The payload bytes of one write. -/
def opPayload : HistOp → List Nat
  | .out p h v => outPayload p h v
  | .spend prev sp sh => spendPayload prev sp sh

/-- The new row of any write carries the payload of its operation and
links back to the previous head for the key. -/
theorem applyOp_eq (s : HState) (k : List Nat) (op : HistOp) :
    applyOp s k op =
      ⟨updateIndex s.keyIndex k (some s.rows.length),
        s.rows ++ [⟨s.lookup k, opPayload op⟩]⟩ := by
  cases op with
  | out p h v => simpa [applyOp, opPayload] using addOutput_eq s k p h v
  | spend prev sp sh =>
    simpa [applyOp, opPayload] using addSpend_eq s k prev sp sh

theorem toData_length {p : Point} (hp : p.hash.length = 32) :
    p.toData.length = 36 := by
  simp [Point.toData, hp, leBytes_length]

theorem markerToKind_zero : markerToKind 0 = some PointKind.output := rfl

theorem markerToKind_one : markerToKind 1 = some PointKind.spend := rfl

theorem readRow_outPayload (p : Point) (h v : Nat)
    (hp : p.hash.length = 32) (hi : p.pointIndex < 2 ^ 32)
    (hh : h < 2 ^ 32) (hv : v < 2 ^ 64) :
    readRow (outPayload p h v) = some ⟨PointKind.output, p, h, v⟩ := by
  have hdrop37 : (outPayload p h v).drop 37 =
      leBytes 4 h ++ leBytes 8 v := by
    have hg : outPayload p h v =
        (0 :: p.toData) ++ (leBytes 4 h ++ leBytes 8 v) := by
      simp [outPayload]
    rw [hg, List.drop_left' (by simp [toData_length hp])]
  have hdrop41 : (outPayload p h v).drop 41 = leBytes 8 v := by
    have hg : outPayload p h v =
        ((0 :: p.toData) ++ leBytes 4 h) ++ leBytes 8 v := by
      simp [outPayload]
    rw [hg,
      List.drop_left' (by simp [toData_length hp, leBytes_length])]
  have hpoint : Point.fromData ((outPayload p h v).drop 1) = p := by
    have h1 : (outPayload p h v).drop 1 =
        p.hash ++ (leBytes 4 p.pointIndex ++
          (leBytes 4 h ++ leBytes 8 v)) := by
      simp [outPayload, Point.toData]
    have hmod4 : p.pointIndex % 256 ^ 4 = p.pointIndex := by
      rw [show (256 : Nat) ^ 4 = 2 ^ 32 by norm_num]
      exact Nat.mod_eq_of_lt hi
    rw [h1]
    simp only [Point.fromData, List.take_left' hp, List.drop_left' hp,
      List.take_left' (leBytes_length 4 p.pointIndex), leRead_leBytes]
    rw [hmod4]
  have htake4 : (leBytes 4 h ++ leBytes 8 v).take 4 = leBytes 4 h :=
    List.take_left' (leBytes_length 4 h)
  have htake8 : (leBytes 8 v).take 8 = leBytes 8 v :=
    List.take_of_length_le (by simp [leBytes_length])
  have hhead : (outPayload p h v).headD 0 = 0 := rfl
  simp only [readRow, hhead, markerToKind_zero]
  have hh4 : h % 256 ^ 4 = h := by
    rw [show (256 : Nat) ^ 4 = 2 ^ 32 by norm_num]
    exact Nat.mod_eq_of_lt hh
  have hv8 : v % 256 ^ 8 = v := by
    rw [show (256 : Nat) ^ 8 = 2 ^ 64 by norm_num]
    exact Nat.mod_eq_of_lt hv
  rw [hpoint, hdrop37, hdrop41, htake4, htake8, leRead_leBytes,
    leRead_leBytes, hh4, hv8]

theorem readRow_spendPayload (prev sp : Point) (sh : Nat)
    (hp : sp.hash.length = 32) (hi : sp.pointIndex < 2 ^ 32) :
    readRow (spendPayload prev sp sh) =
      some ⟨PointKind.spend, sp, sh % 2 ^ 32, prev.checksum⟩ := by
  have hdrop37 : (spendPayload prev sp sh).drop 37 =
      leBytes 4 sh ++ leBytes 8 prev.checksum := by
    have hg : spendPayload prev sp sh =
        (1 :: sp.toData) ++ (leBytes 4 sh ++ leBytes 8 prev.checksum) := by
      simp [spendPayload]
    rw [hg, List.drop_left' (by simp [toData_length hp])]
  have hdrop41 : (spendPayload prev sp sh).drop 41 =
      leBytes 8 prev.checksum := by
    have hg : spendPayload prev sp sh =
        ((1 :: sp.toData) ++ leBytes 4 sh) ++ leBytes 8 prev.checksum := by
      simp [spendPayload]
    rw [hg,
      List.drop_left' (by simp [toData_length hp, leBytes_length])]
  have hpoint : Point.fromData ((spendPayload prev sp sh).drop 1) = sp := by
    have h1 : (spendPayload prev sp sh).drop 1 =
        sp.hash ++ (leBytes 4 sp.pointIndex ++
          (leBytes 4 sh ++ leBytes 8 prev.checksum)) := by
      simp [spendPayload, Point.toData]
    have hmod4 : sp.pointIndex % 256 ^ 4 = sp.pointIndex := by
      rw [show (256 : Nat) ^ 4 = 2 ^ 32 by norm_num]
      exact Nat.mod_eq_of_lt hi
    rw [h1]
    simp only [Point.fromData, List.take_left' hp, List.drop_left' hp,
      List.take_left' (leBytes_length 4 sp.pointIndex), leRead_leBytes]
    rw [hmod4]
  have hck : prev.checksum < 2 ^ 64 := by
    have := Nat.mod_lt (prev.toData.foldl (fun acc b => acc * 256 + b) 0)
      (show 0 < 2 ^ 64 by norm_num)
    simpa [Point.checksum] using this
  have htake4 : (leBytes 4 sh ++ leBytes 8 prev.checksum).take 4 =
      leBytes 4 sh := List.take_left' (leBytes_length 4 sh)
  have htake8 : (leBytes 8 prev.checksum).take 8 =
      leBytes 8 prev.checksum :=
    List.take_of_length_le (by simp [leBytes_length])
  have hhead : (spendPayload prev sp sh).headD 0 = 1 := rfl
  simp only [readRow, hhead, markerToKind_one]
  have hsh4 : sh % 256 ^ 4 = sh % 2 ^ 32 := by norm_num
  have hck8 : prev.checksum % 256 ^ 8 = prev.checksum := by
    rw [show (256 : Nat) ^ 8 = 2 ^ 64 by norm_num]
    exact Nat.mod_eq_of_lt hck
  rw [hpoint, hdrop37, hdrop41, htake4, htake8, leRead_leBytes,
    leRead_leBytes, hsh4, hck8]

/-- The decoded height of a returned row equals the raw height the
scan's filter read. -/
theorem readRow_height {payload : List Nat} {r : HistoryRow}
    (h : readRow payload = some r) : r.height = readHeight payload := by
  unfold readRow at h
  cases hm : markerToKind (payload.headD 0) with
  | none => rw [hm] at h; exact absurd h (by simp)
  | some kind =>
    rw [hm] at h
    cases h
    rfl

/-- Decoding a well-formed write's payload gives its `HistOp.row`. -/
theorem readRow_opPayload {op : HistOp} (hop : op.wfOp) :
    readRow (opPayload op) = some op.row := by
  cases op with
  | out p h v =>
    exact readRow_outPayload p h v hop.1 hop.2.1 hop.2.2.1 hop.2.2.2
  | spend prev sp sh =>
    exact readRow_spendPayload prev sp sh hop.1 hop.2

/-! ## Properties of the chain walk -/

theorem getLoop_step (rows : List HRow) (limit fh : Nat)
    (acc : List HistoryRow) (off fuel : Nat) :
    getLoop rows limit fh acc (some off) (fuel + 1) =
      if limit ≠ 0 ∧ limit ≤ acc.length then some acc
      else
        match rows.get? off with
        | none => none
        | some row =>
          if fh = 0 ∨ fh ≤ readHeight row.payload then
            match readRow row.payload with
            | none => none
            | some r => getLoop rows limit fh (acc ++ [r]) row.next fuel
          else getLoop rows limit fh acc row.next fuel := rfl

theorem getLoop_zero (rows : List HRow) (limit fh : Nat)
    (acc : List HistoryRow) (cur : Option Nat) :
    getLoop rows limit fh acc cur 0 = none := by
  cases cur <;> rfl

theorem getLoop_none (rows : List HRow) (limit fh : Nat)
    (acc : List HistoryRow) (fuel : Nat) (hf : 1 ≤ fuel) :
    getLoop rows limit fh acc none fuel = some acc := by
  cases fuel with
  | zero => omega
  | succ f => rfl

/-- In an unlimited walk the accumulator only prefixes the result. -/
theorem getLoop_acc (rows : List HRow) (fh : Nat) :
    ∀ (fuel : Nat) (cur : Option Nat) (acc : List HistoryRow),
      getLoop rows 0 fh acc cur fuel =
        (getLoop rows 0 fh [] cur fuel).map (fun l => acc ++ l) := by
  intro fuel
  induction fuel with
  | zero => intro cur acc; rw [getLoop_zero, getLoop_zero]; rfl
  | succ f ih =>
    intro cur acc
    cases cur with
    | none => simp [getLoop_none]
    | some off =>
      rw [getLoop_step, getLoop_step, if_neg (by simp), if_neg (by simp)]
      cases hrow : rows.get? off with
      | none => rfl
      | some row =>
        simp only
        by_cases hkeep : fh = 0 ∨ fh ≤ readHeight row.payload
        · rw [if_pos hkeep, if_pos hkeep]
          cases hr : readRow row.payload with
          | none => rfl
          | some r =>
            simp only
            rw [ih row.next (acc ++ [r]), ih row.next ([] ++ [r])]
            cases getLoop rows 0 fh [] row.next f with
            | none => rfl
            | some rest => simp
        · rw [if_neg hkeep, if_neg hkeep, ih row.next acc]

/-- Any two sufficient fuels give the same walk result (links strictly
decrease, so a chain from `off` has at most `off + 1` elements). -/
theorem getLoop_fuel (rows : List HRow) (hnext : nextOk rows)
    (limit fh : Nat) :
    ∀ (off : Nat) (acc : List HistoryRow) (fuel fuel' : Nat),
      off + 2 ≤ fuel → off + 2 ≤ fuel' →
      getLoop rows limit fh acc (some off) fuel =
        getLoop rows limit fh acc (some off) fuel' := by
  intro off
  induction off using Nat.strong_induction_on with
  | _ off ih =>
    intro acc fuel fuel' hf hf'
    obtain ⟨f, rfl⟩ : ∃ f, fuel = f + 1 := ⟨fuel - 1, by omega⟩
    obtain ⟨f', rfl⟩ : ∃ f', fuel' = f' + 1 := ⟨fuel' - 1, by omega⟩
    rw [getLoop_step, getLoop_step]
    by_cases hstop : limit ≠ 0 ∧ limit ≤ acc.length
    · rw [if_pos hstop, if_pos hstop]
    · rw [if_neg hstop, if_neg hstop]
      cases hrow : rows.get? off with
      | none => rfl
      | some row =>
        simp only
        have hnxt : ∀ (a : List HistoryRow),
            getLoop rows limit fh a row.next f =
              getLoop rows limit fh a row.next f' := by
          intro a
          cases hn : row.next with
          | none =>
            rw [getLoop_none _ _ _ _ _ (by omega),
              getLoop_none _ _ _ _ _ (by omega)]
          | some j =>
            have hj : j < off := hnext off row j hrow hn
            exact ih j hj a f f' (by omega) (by omega)
        by_cases hkeep : fh = 0 ∨ fh ≤ readHeight row.payload
        · rw [if_pos hkeep, if_pos hkeep]
          cases hr : readRow row.payload with
          | none => rfl
          | some r => exact hnxt (acc ++ [r])
        · rw [if_neg hkeep, if_neg hkeep]
          exact hnxt acc

/-- Appending rows to the arena does not change a walk that starts
inside the old rows (old links stay inside the old rows). -/
theorem getLoop_append (rows extra : List HRow) (hnext : nextOk rows)
    (limit fh : Nat) :
    ∀ (fuel off : Nat) (acc : List HistoryRow), off < rows.length →
      getLoop (rows ++ extra) limit fh acc (some off) fuel =
        getLoop rows limit fh acc (some off) fuel := by
  intro fuel
  induction fuel with
  | zero => intro off acc _; rfl
  | succ f ih =>
    intro off acc hoff
    rw [getLoop_step, getLoop_step, List.get?_append hoff]
    by_cases hstop : limit ≠ 0 ∧ limit ≤ acc.length
    · rw [if_pos hstop, if_pos hstop]
    · rw [if_neg hstop, if_neg hstop]
      cases hrow : rows.get? off with
      | none => rfl
      | some row =>
        simp only
        have hnxt : ∀ (a : List HistoryRow),
            getLoop (rows ++ extra) limit fh a row.next f =
              getLoop rows limit fh a row.next f := by
          intro a
          cases hn : row.next with
          | none =>
            cases f with
            | zero => rfl
            | succ g => rfl
          | some j =>
            have hj : j < off := hnext off row j hrow hn
            exact ih j a (by omega)
        by_cases hkeep : fh = 0 ∨ fh ≤ readHeight row.payload
        · rw [if_pos hkeep, if_pos hkeep]
          cases hr : readRow row.payload with
          | none => rfl
          | some r => exact hnxt (acc ++ [r])
        · rw [if_neg hkeep, if_neg hkeep]
          exact hnxt acc

theorem readRow_isSome_of_rowOk {row : HRow} (h : rowOk row) :
    ∃ r, readRow row.payload = some r := by
  rcases h with h0 | h1
  · exact ⟨_, by unfold readRow; rw [h0, markerToKind_zero]⟩
  · exact ⟨_, by unfold readRow; rw [h1, markerToKind_one]⟩

/-- With valid markers, in-range links and enough fuel, the unlimited
walk never fails: the decode assertion cannot fire. -/
theorem getLoop_total (rows : List HRow) (hnext : nextOk rows)
    (hrows : ∀ row ∈ rows, rowOk row) (fh : Nat) :
    ∀ (off : Nat) (acc : List HistoryRow) (fuel : Nat),
      off < rows.length → off + 2 ≤ fuel →
      (getLoop rows 0 fh acc (some off) fuel).isSome := by
  intro off
  induction off using Nat.strong_induction_on with
  | _ off ih =>
    intro acc fuel hoff hfuel
    obtain ⟨f, rfl⟩ : ∃ f, fuel = f + 1 := ⟨fuel - 1, by omega⟩
    rw [getLoop_step, if_neg (by simp)]
    obtain ⟨row, hrow⟩ : ∃ row, rows.get? off = some row :=
      ⟨rows.get ⟨off, hoff⟩, List.get?_eq_get hoff⟩
    rw [hrow]
    simp only
    have hok : rowOk row := hrows row (List.get?_mem hrow)
    have hnxt : ∀ (a : List HistoryRow),
        (getLoop rows 0 fh a row.next f).isSome := by
      intro a
      cases hn : row.next with
      | none => rw [getLoop_none _ _ _ _ _ (by omega)]; rfl
      | some j =>
        have hj : j < off := hnext off row j hrow hn
        exact ih j hj a f (by omega) (by omega)
    by_cases hkeep : fh = 0 ∨ fh ≤ readHeight row.payload
    · rw [if_pos hkeep]
      obtain ⟨r, hr⟩ := readRow_isSome_of_rowOk hok
      rw [hr]
      exact hnxt (acc ++ [r])
    · rw [if_neg hkeep]
      exact hnxt acc

/-- Once the limit is reached, the walk stops immediately. -/
theorem getLoop_stop (rows : List HRow) (L fh : Nat)
    (acc : List HistoryRow) (cur : Option Nat) (fuel : Nat)
    (hL : L ≠ 0) (hlen : L ≤ acc.length) (hf : 1 ≤ fuel) :
    getLoop rows L fh acc cur fuel = some acc := by
  obtain ⟨f, rfl⟩ : ∃ f, fuel = f + 1 := ⟨fuel - 1, by omega⟩
  cases cur with
  | none => rfl
  | some off => rw [getLoop_step, if_pos ⟨hL, hlen⟩]

/-- A limited walk returns the prefix of the unlimited walk: skipped
rows never count toward the limit. -/
theorem getLoop_limit (rows : List HRow) (fh L : Nat) (hL : 0 < L) :
    ∀ (fuel : Nat) (cur : Option Nat) (acc full : List HistoryRow),
      acc.length < L →
      getLoop rows 0 fh [] cur fuel = some full →
      getLoop rows L fh acc cur fuel =
        some (acc ++ full.take (L - acc.length)) := by
  intro fuel
  induction fuel with
  | zero =>
    intro cur acc full _ hfull
    rw [getLoop_zero] at hfull
    exact absurd hfull (by simp)
  | succ f ih =>
    intro cur acc full hacc hfull
    cases cur with
    | none =>
      rw [getLoop_none _ _ _ _ _ (by omega)] at hfull
      obtain rfl : ([] : List HistoryRow) = full := by
        simpa using hfull
      rw [getLoop_none _ _ _ _ _ (by omega)]
      simp
    | some off =>
      rw [getLoop_step] at hfull ⊢
      rw [if_neg (by simp)] at hfull
      rw [if_neg (by omega)]
      cases hrow : rows.get? off with
      | none =>
        rw [hrow] at hfull
        exact absurd hfull (by simp)
      | some row =>
        rw [hrow] at hfull
        simp only at hfull ⊢
        by_cases hkeep : fh = 0 ∨ fh ≤ readHeight row.payload
        · rw [if_pos hkeep] at hfull ⊢
          cases hr : readRow row.payload with
          | none =>
            rw [hr] at hfull
            exact absurd hfull (by simp)
          | some r =>
            rw [hr] at hfull
            simp only at hfull ⊢
            rw [getLoop_acc] at hfull
            cases hrest : getLoop rows 0 fh [] row.next f with
            | none =>
              rw [hrest] at hfull
              exact absurd hfull (by simp)
            | some rest =>
              rw [hrest] at hfull
              obtain rfl : r :: rest = full := by simpa using hfull
              have hf1 : 1 ≤ f := by
                cases f with
                | zero =>
                  rw [getLoop_zero] at hrest
                  exact absurd hrest (by simp)
                | succ g => omega
              by_cases hfin : acc.length + 1 < L
              · have hstep := ih row.next (acc ++ [r]) rest
                  (by simpa using hfin) hrest
                rw [hstep]
                have harith : L - acc.length =
                    (L - (acc ++ [r]).length) + 1 := by
                  simp only [List.length_append, List.length_cons,
                    List.length_nil]
                  omega
                rw [harith, List.take_succ_cons]
                simp
              · have hstop := getLoop_stop rows L fh (acc ++ [r])
                  row.next f (by omega) (by simp; omega) hf1
                rw [hstop]
                have harith : L - acc.length = 1 := by
                  simp only [List.length_append, List.length_cons,
                    List.length_nil] at hfin
                  omega
                rw [harith]
                simp
        · rw [if_neg hkeep] at hfull ⊢
          exact ih row.next acc full hacc hfull

/-- The height filter only filters: the scan never stops early on a
skipped row, so the filtered walk is the filter of the unfiltered. -/
theorem getLoop_filter (rows : List HRow) (fh : Nat) :
    ∀ (fuel : Nat) (cur : Option Nat) (full : List HistoryRow),
      getLoop rows 0 0 [] cur fuel = some full →
      getLoop rows 0 fh [] cur fuel =
        some (full.filter (fun r => decide (fh ≤ r.height))) := by
  intro fuel
  induction fuel with
  | zero =>
    intro cur full hfull
    rw [getLoop_zero] at hfull
    exact absurd hfull (by simp)
  | succ f ih =>
    intro cur full hfull
    cases cur with
    | none =>
      rw [getLoop_none _ _ _ _ _ (by omega)] at hfull
      obtain rfl : ([] : List HistoryRow) = full := by simpa using hfull
      rw [getLoop_none _ _ _ _ _ (by omega)]
      simp
    | some off =>
      rw [getLoop_step] at hfull ⊢
      rw [if_neg (by simp)] at hfull
      rw [if_neg (by simp)]
      cases hrow : rows.get? off with
      | none =>
        rw [hrow] at hfull
        exact absurd hfull (by simp)
      | some row =>
        rw [hrow] at hfull
        simp only at hfull ⊢
        rw [if_pos (by simp)] at hfull
        cases hr : readRow row.payload with
        | none =>
          rw [hr] at hfull
          exact absurd hfull (by simp)
        | some r =>
          rw [hr] at hfull
          simp only at hfull ⊢
          rw [getLoop_acc] at hfull
          cases hrest : getLoop rows 0 0 [] row.next f with
          | none =>
            rw [hrest] at hfull
            exact absurd hfull (by simp)
          | some rest =>
            rw [hrest] at hfull
            obtain rfl : r :: rest = full := by simpa using hfull
            have hh : r.height = readHeight row.payload := readRow_height hr
            by_cases hkeep : fh = 0 ∨ fh ≤ readHeight row.payload
            · rw [if_pos hkeep, getLoop_acc, ih row.next rest hrest]
              have hpr : decide (fh ≤ r.height) = true := by
                rcases hkeep with h0 | hle
                · subst h0; simp
                · rw [hh]; simpa using hle
              simp [List.filter_cons, hpr]
            · rw [if_neg hkeep, ih row.next rest hrest]
              have hpr : decide (fh ≤ r.height) = false := by
                rw [hh]
                simpa using fun h => hkeep (Or.inr h)
              simp [List.filter_cons, hpr]

/-! ## State-level lemmas -/

theorem opPayload_headD (op : HistOp) :
    (opPayload op).headD 0 = 0 ∨ (opPayload op).headD 0 = 1 := by
  cases op with
  | out p h v => exact Or.inl rfl
  | spend prev sp sh => exact Or.inr rfl

theorem lookup_applyOp_self (s : HState) (k : List Nat) (op : HistOp) :
    (applyOp s k op).lookup k = some s.rows.length := by
  rw [applyOp_eq]
  exact lookup_updateIndex_self _ _ _ _

theorem rows_applyOp (s : HState) (k : List Nat) (op : HistOp) :
    (applyOp s k op).rows =
      s.rows ++ [⟨s.lookup k, opPayload op⟩] := by
  rw [applyOp_eq]

/-- Every public write preserves the store invariant. -/
theorem wf_applyOp {s : HState} (hwf : s.wf) (k : List Nat)
    (op : HistOp) : (applyOp s k op).wf := by
  rw [applyOp_eq]
  set nr : HRow := ⟨s.lookup k, opPayload op⟩ with hnr
  refine ⟨?_, ?_, ?_⟩
  · intro i row j hget hnext
    rcases Nat.lt_trichotomy i s.rows.length with hi | hi | hi
    · exact hwf.1 i row j (by rwa [List.get?_append hi] at hget) hnext
    · subst hi
      rw [List.get?_concat_length] at hget
      obtain rfl : nr = row := by simpa using hget
      have : s.lookup k = some j := by simpa [hnr] using hnext
      exact lookup_lt_of_wf hwf this
    · have hlen : (s.rows ++ [nr]).get? i = none :=
        List.get?_eq_none.mpr (by simp; omega)
      rw [hlen] at hget
      exact absurd hget (by simp)
  · intro row hrow
    rcases List.mem_append.mp hrow with h | h
    · exact hwf.2.1 row h
    · obtain rfl : row = nr := by simpa using h
      exact opPayload_headD op
  · intro e he off hoff
    rcases mem_updateIndex he with rfl | he'
    · simp only at hoff
      obtain rfl : s.rows.length = off := by simpa using hoff
      simp
    · have := hwf.2.2 e he' off hoff
      simp
      omega

/-- `add_row` immediately followed by `delete_last_row` on the same key
restores the key's head offset and every subsequent `get` on the key. -/
theorem deleteLastRow_applyOp (s : HState) (hwf : s.wf) (k : List Nat)
    (op : HistOp) :
    ∃ s', (applyOp s k op).deleteLastRow k = some s' ∧
      s'.lookup k = s.lookup k ∧
      ∀ limit fh, s'.get k limit fh = s.get k limit fh := by
  set nr : HRow := ⟨s.lookup k, opPayload op⟩ with hnr
  have hrows : (applyOp s k op).rows = s.rows ++ [nr] := rows_applyOp s k op
  have hlook : (applyOp s k op).lookup k = some s.rows.length :=
    lookup_applyOp_self s k op
  have hget : (applyOp s k op).rows.get? s.rows.length = some nr := by
    rw [hrows]
    exact List.get?_concat_length s.rows nr
  refine ⟨⟨updateIndex (applyOp s k op).keyIndex k nr.next,
    (applyOp s k op).rows⟩, ?_, ?_, ?_⟩
  · unfold HState.deleteLastRow
    rw [hlook]
    simp only
    rw [hget]
  · have : nr.next = s.lookup k := rfl
    rw [this]
    exact lookup_updateIndex_self _ _ _ _
  · intro limit fh
    have hl : HState.lookup ⟨updateIndex (applyOp s k op).keyIndex k
        nr.next, (applyOp s k op).rows⟩ k = s.lookup k :=
      lookup_updateIndex_self _ _ _ _
    unfold HState.get
    rw [hl, hrows]
    simp only [List.length_append, List.length_cons, List.length_nil]
    cases hcur : s.lookup k with
    | none =>
      rw [getLoop_none _ _ _ _ _ (by omega),
        getLoop_none _ _ _ _ _ (by omega)]
    | some off =>
      have hoff : off < s.rows.length := lookup_lt_of_wf hwf hcur
      rw [getLoop_append s.rows [nr] hwf.1 limit fh _ off [] hoff]
      exact getLoop_fuel s.rows hwf.1 limit fh off [] _ _
        (by omega) (by omega)

theorem applyOpsK_append (k : List Nat) (ops : List HistOp)
    (op : HistOp) :
    ∀ s, applyOpsK s k (ops ++ [op]) = applyOp (applyOpsK s k ops) k op := by
  induction ops with
  | nil => intro s; rfl
  | cons o os ih => intro s; exact ih (applyOp s k o)

theorem wf_applyOpsK (k : List Nat) (ops : List HistOp) :
    ∀ s, s.wf → (applyOpsK s k ops).wf := by
  induction ops with
  | nil => intro s h; exact h
  | cons o os ih => intro s h; exact ih (applyOp s k o) (wf_applyOp h k o)

theorem wf_applyOps (ops : List (List Nat × HistOp)) :
    ∀ s, s.wf → (applyOps s ops).wf := by
  induction ops with
  | nil => intro s h; exact h
  | cons e os ih =>
    intro s h
    exact ih (applyOp s e.1 e.2) (wf_applyOp h e.1 e.2)

/-- A same-key write sequence from an empty store reads back in exact
reverse insertion order. -/
theorem get_applyOpsK (k : List Nat) (ops : List HistOp)
    (hops : ∀ op ∈ ops, op.wfOp) :
    (applyOpsK HState.empty k ops).get k 0 0 =
      some ((ops.map HistOp.row).reverse) := by
  induction ops using List.reverseRecOn with
  | nil =>
    simp only [applyOpsK, HState.get, HState.empty, HState.lookup,
      List.find?]
    rfl
  | append_singleton ops op ih =>
    have hop : op.wfOp := hops op (by simp)
    have hprev : ∀ o ∈ ops, o.wfOp := fun o ho => hops o (by simp [ho])
    set sn := applyOpsK HState.empty k ops with hsn
    have hwfn : sn.wf := wf_applyOpsK k ops _ wf_empty
    rw [applyOpsK_append]
    set m := sn.rows.length with hm
    have hlook : (applyOp sn k op).lookup k = some m :=
      lookup_applyOp_self sn k op
    set nr : HRow := ⟨sn.lookup k, opPayload op⟩ with hnr
    have hrows : (applyOp sn k op).rows = sn.rows ++ [nr] :=
      rows_applyOp sn k op
    unfold HState.get
    rw [hlook, hrows]
    simp only [List.length_append, List.length_cons, List.length_nil]
    rw [show m + (0 + 1) + 1 = (m + 1) + 1 by omega]
    rw [getLoop_step, if_neg (by simp), List.get?_concat_length]
    simp only
    rw [if_pos (by simp)]
    have hread : readRow (opPayload op) = some op.row :=
      readRow_opPayload hop
    rw [hread]
    simp only
    rw [getLoop_acc]
    have hinner : getLoop (sn.rows ++ [nr]) 0 0 [] (sn.lookup k) (m + 1) =
        sn.get k 0 0 := by
      unfold HState.get
      cases hcur : sn.lookup k with
      | none =>
        rw [getLoop_none _ _ _ _ _ (by omega),
          getLoop_none _ _ _ _ _ (by omega)]
      | some off =>
        have hoff : off < sn.rows.length := lookup_lt_of_wf hwfn hcur
        rw [getLoop_append sn.rows [nr] hwfn.1 0 0 _ off [] hoff]
    rw [hinner, ih hprev]
    simp

/-- On a well-formed state the unlimited walk always succeeds. -/
theorem get_unlimited_some {s : HState} (hwf : s.wf) (k : List Nat)
    (fh : Nat) : ∃ full, s.get k 0 fh = some full := by
  unfold HState.get
  cases hcur : s.lookup k with
  | none => exact ⟨[], getLoop_none _ _ _ _ _ (by omega)⟩
  | some off =>
    have hoff := lookup_lt_of_wf hwf hcur
    have hs := getLoop_total s.rows hwf.1 hwf.2.1 fh off []
      (s.rows.length + 1) hoff (by omega)
    obtain ⟨full, hf⟩ := Option.isSome_iff_exists.mp hs
    exact ⟨full, hf⟩

/-- On a well-formed state `get` always succeeds, for every limit. -/
theorem get_isSome_of_wf {s : HState} (hwf : s.wf) (k : List Nat)
    (L fh : Nat) : (s.get k L fh).isSome := by
  obtain ⟨full, hfull⟩ := get_unlimited_some hwf k fh
  unfold HState.get at hfull
  rcases Nat.eq_zero_or_pos L with h0 | hL
  · subst h0
    unfold HState.get
    rw [hfull]
    rfl
  · have ht := getLoop_limit s.rows fh L hL (s.rows.length + 1)
      (s.lookup k) [] full (by simpa using hL) hfull
    unfold HState.get
    rw [ht]
    rfl

/-! Concrete inputs used by the witnesses. -/

/-- A concrete 20-byte address key. -/
def keyW : List Nat := List.replicate 20 7

/-- A concrete outpoint with a 32-byte hash. -/
def p1W : Point := ⟨List.replicate 32 1, 0⟩

/-- A concrete spend point with a 32-byte hash. -/
def s1W : Point := ⟨List.replicate 32 2, 3⟩

/-- The spec §8 scenario: an output row then a spend row under one
key. -/
def opsW : List HistOp :=
  [HistOp.out p1W 10 5000, HistOp.spend p1W s1W 20]

theorem opsW_wf : ∀ op ∈ opsW, op.wfOp := by
  intro op hop
  rcases (by simpa [opsW] using hop : op = HistOp.out p1W 10 5000 ∨
      op = HistOp.spend p1W s1W 20) with rfl | rfl
  · refine ⟨by simp [p1W], by simp [p1W], by norm_num, by norm_num⟩
  · exact ⟨by simp [s1W], by simp [s1W]⟩

/-- C2: under one key, any sequence of `add_output`/`add_spend` calls
from a fresh store reads back through `get(key, 0, 0)` as exactly one
row per call, in exact reverse insertion order. -/
theorem c2_most_recent_first_order (k : List Nat) (ops : List HistOp)
    (hops : ∀ op ∈ ops, op.wfOp) :
    (applyOpsK HState.empty k ops).get k 0 0 =
      some ((ops.map HistOp.row).reverse) :=
  get_applyOpsK k ops hops

/-- Witness for C2 at the spec §8 scenario inputs. -/
theorem c2_most_recent_first_order_witness :
    (∀ op ∈ opsW, op.wfOp) ∧
      (applyOpsK HState.empty keyW opsW).get keyW 0 0 =
        some ((opsW.map HistOp.row).reverse) :=
  ⟨opsW_wf, c2_most_recent_first_order keyW opsW opsW_wf⟩

/-- C3: one `add_output`/`add_spend` followed immediately by
`delete_last_row` on the same key restores the key's head offset and
the result of every subsequent `get` on that key. -/
theorem c3_delete_last_row_undoes_add (s : HState) (hwf : s.wf)
    (k : List Nat) (op : HistOp) :
    ∃ s', (applyOp s k op).deleteLastRow k = some s' ∧
      s'.lookup k = s.lookup k ∧
      ∀ limit fh, s'.get k limit fh = s.get k limit fh :=
  deleteLastRow_applyOp s hwf k op

/-- Witness for C3: add one output row to the fresh store and pop it. -/
theorem c3_delete_last_row_undoes_add_witness :
    HState.empty.wf ∧
      ∃ s', (applyOp HState.empty keyW
          (HistOp.out p1W 10 5000)).deleteLastRow keyW = some s' ∧
        s'.lookup keyW = HState.empty.lookup keyW ∧
        ∀ limit fh, s'.get keyW limit fh = HState.empty.get keyW limit fh :=
  ⟨wf_empty, c3_delete_last_row_undoes_add HState.empty wf_empty keyW
    (HistOp.out p1W 10 5000)⟩

/-- C4: with a positive limit, `get` returns exactly the prefix of
length `min L (matching rows)` of the unlimited (most-recent-first,
height-filtered) result; skipped rows do not count toward the limit,
and limit 0 is the unlimited walk itself. -/
theorem c4_limit_semantics (s : HState) (k : List Nat) (L fh : Nat)
    (hwf : s.wf) (hL : 0 < L) :
    ∃ full, s.get k 0 fh = some full ∧
      s.get k L fh = some (full.take L) ∧
      (full.take L).length = min L full.length := by
  obtain ⟨full, hfull⟩ := get_unlimited_some hwf k fh
  have hfull' := hfull
  unfold HState.get at hfull'
  refine ⟨full, hfull, ?_, by simp [List.length_take]⟩
  have ht := getLoop_limit s.rows fh L hL (s.rows.length + 1)
    (s.lookup k) [] full (by simpa using hL) hfull'
  unfold HState.get
  rw [ht]
  simp

/-- Witness for C4 on the two-row scenario store with limit 1. -/
theorem c4_limit_semantics_witness :
    (applyOpsK HState.empty keyW opsW).wf ∧ 0 < 1 ∧
      ∃ full, (applyOpsK HState.empty keyW opsW).get keyW 0 0 =
          some full ∧
        (applyOpsK HState.empty keyW opsW).get keyW 1 0 =
          some (full.take 1) ∧
        (full.take 1).length = min 1 full.length :=
  ⟨wf_applyOpsK keyW opsW HState.empty wf_empty, Nat.one_pos,
    c4_limit_semantics (applyOpsK HState.empty keyW opsW) keyW 1 0
      (wf_applyOpsK keyW opsW HState.empty wf_empty) Nat.one_pos⟩

/-- C5: the height filter of `get` only filters — a row below
`from_height` is skipped without stopping the scan, so the filtered
result is exactly the filter of the unfiltered most-recent-first
result, and `from_height = 0` filters nothing. -/
theorem c5_height_filter_non_terminating (s : HState) (k : List Nat)
    (fh : Nat) (hwf : s.wf) :
    ∃ full, s.get k 0 0 = some full ∧
      s.get k 0 fh =
        some (full.filter (fun r => decide (fh ≤ r.height))) ∧
      full.filter (fun r => decide ((0 : Nat) ≤ r.height)) = full := by
  obtain ⟨full, hfull⟩ := get_unlimited_some hwf k 0
  have hfull' := hfull
  unfold HState.get at hfull'
  refine ⟨full, hfull, ?_, by simp⟩
  have hf := getLoop_filter s.rows fh (s.rows.length + 1)
    (s.lookup k) full hfull'
  unfold HState.get
  rw [hf]

/-- Witness for C5 on the two-row scenario store with
`from_height = 15` (skips the height-10 output row, keeps the older
spend row's sibling — the height-20 spend is newer and kept). -/
theorem c5_height_filter_non_terminating_witness :
    (applyOpsK HState.empty keyW opsW).wf ∧
      ∃ full, (applyOpsK HState.empty keyW opsW).get keyW 0 0 =
          some full ∧
        (applyOpsK HState.empty keyW opsW).get keyW 0 15 =
          some (full.filter (fun r => decide (15 ≤ r.height))) ∧
        full.filter (fun r => decide ((0 : Nat) ≤ r.height)) = full :=
  ⟨wf_applyOpsK keyW opsW HState.empty wf_empty,
    c5_height_filter_non_terminating (applyOpsK HState.empty keyW opsW)
      keyW 15 (wf_applyOpsK keyW opsW HState.empty wf_empty)⟩

/-- C6: `add_output` writes exactly
`marker 0 | outpoint(36B) | height(4B LE) | value(8B LE)` and
`add_spend` writes exactly
`marker 1 | spend point(36B) | spend_height(4B LE) |
checksum(previous)(8B LE)` into the freshly appended row. -/
theorem c6_row_encoding (s : HState) (k : List Nat) (p prev sp : Point)
    (h v sh : Nat) (hp : p.hash.length = 32) (hsp : sp.hash.length = 32) :
    p.toData.length = 36 ∧ sp.toData.length = 36 ∧
    (addOutput s k p h v).rows.get? s.rows.length =
      some ⟨s.lookup k,
        0 :: (p.toData ++ (leBytes 4 h ++ leBytes 8 v))⟩ ∧
    (addSpend s k prev sp sh).rows.get? s.rows.length =
      some ⟨s.lookup k,
        1 :: (sp.toData ++ (leBytes 4 sh ++ leBytes 8 prev.checksum))⟩ := by
  refine ⟨toData_length hp, toData_length hsp, ?_, ?_⟩
  · rw [addOutput_eq]
    simpa [outPayload] using
      List.get?_concat_length s.rows ⟨s.lookup k, outPayload p h v⟩
  · rw [addSpend_eq]
    simpa [spendPayload] using
      List.get?_concat_length s.rows ⟨s.lookup k, spendPayload prev sp sh⟩

/-- Witness for C6 at the scenario points on the fresh store. -/
theorem c6_row_encoding_witness :
    p1W.hash.length = 32 ∧ s1W.hash.length = 32 ∧
      (p1W.toData.length = 36 ∧ s1W.toData.length = 36 ∧
      (addOutput HState.empty keyW p1W 10 5000).rows.get?
          HState.empty.rows.length =
        some ⟨HState.empty.lookup keyW,
          0 :: (p1W.toData ++ (leBytes 4 10 ++ leBytes 8 5000))⟩ ∧
      (addSpend HState.empty keyW p1W s1W 20).rows.get?
          HState.empty.rows.length =
        some ⟨HState.empty.lookup keyW,
          1 :: (s1W.toData ++ (leBytes 4 20 ++ leBytes 8 p1W.checksum))⟩) :=
  ⟨by simp [p1W], by simp [s1W],
    c6_row_encoding HState.empty keyW p1W p1W s1W 10 5000 20
      (by simp [p1W]) (by simp [s1W])⟩

/-- C10: rows written through the public interface always carry marker
0 or 1, `get` over a store populated only by `add_output`/`add_spend`
never trips the `marker_to_kind` assertion, and a decoded kind is
`output` exactly for marker 0 and `spend` exactly for marker 1. -/
theorem c10_marker_assertion_unreachable
    (ops : List (List Nat × HistOp)) (k : List Nat) (L fh : Nat) :
    (∀ row ∈ (applyOps HState.empty ops).rows,
      row.payload.headD 0 = 0 ∨ row.payload.headD 0 = 1) ∧
    ((applyOps HState.empty ops).get k L fh).isSome ∧
    (∀ m κ, markerToKind m = some κ →
      ((κ = PointKind.output ↔ m = 0) ∧ (κ = PointKind.spend ↔ m = 1))) := by
  have hwf := wf_applyOps ops HState.empty wf_empty
  refine ⟨hwf.2.1, get_isSome_of_wf hwf k L fh, ?_⟩
  intro m κ hm
  unfold markerToKind at hm
  by_cases h0 : m = 0
  · rw [if_pos h0] at hm
    cases hm
    subst h0
    constructor <;> simp
  · rw [if_neg h0] at hm
    by_cases h1 : m = 1
    · rw [if_pos h1] at hm
      cases hm
      subst h1
      constructor <;> simp
    · rw [if_neg h1] at hm
      exact absurd hm (by simp)

/-- Witness for C10 on the scenario store. -/
theorem c10_marker_assertion_unreachable_witness :
    ((applyOps HState.empty
        [(keyW, HistOp.out p1W 10 5000), (keyW, HistOp.spend p1W s1W 20)]).get
      keyW 0 0).isSome :=
  (c10_marker_assertion_unreachable
    [(keyW, HistOp.out p1W 10 5000), (keyW, HistOp.spend p1W s1W 20)]
    keyW 0 0).2.1

/-! ## Transaction store (slab hash table) -/

/-- Modelled from the spec: a transaction as consumed by this layer —
opaque 32-byte hash digest (`tx.hash()`), wire serialization
(`tx.to_data()`, with `serialized_size` its length), the output list
and the coinbase flag (external `chain::transaction` collaborator). -/
structure Tx where
  hash : List Nat
  toData : List Nat
  outputs : List (List Nat)
  isCoinbase : Bool
deriving DecidableEq, Repr

/-- One variable-size slab: chain link, stored key, payload bytes. -/
structure Slab where
  next : Option Nat
  key : List Nat
  payload : List Nat
deriving DecidableEq, Repr

/-- `number_buckets` of the transaction store
(transaction_database.cpp:34). -/
def numberBuckets : Nat := 100000000

/-- Modelled from the spec: the external uniform hash used for bucket
selection (`hash(key) mod N`). -/
def hashKey (k : List Nat) : Nat :=
  k.foldl (fun acc b => acc * 31 + b) 0

/-- Modelled from the spec: slab-hash-table state — the fixed bucket
array (as a function from bucket index to head offset) plus the
allocated slabs; slab offsets are indices into `slabs`. -/
structure TState where
  buckets : Nat → Option Nat
  slabs : List Slab

/-- A freshly created (empty) transaction store. -/
def TState.empty : TState := ⟨fun _ => none, []⟩

/-- Modelled from the spec: the chain walk of `slab_hash_table::find` —
compare stored keys until a match or the chain end.  Fuel bounds the
walk as for the history store. -/
def findLoop (slabs : List Slab) (k : List Nat) :
    Option Nat → Nat → Option (List Nat)
  | _, 0 => none
  | none, _ + 1 => none
  | some off, fuel + 1 =>
    match slabs.get? off with
    | none => none
    | some slab =>
      if slab.key == k then some slab.payload
      else findLoop slabs k slab.next fuel

/-- Modelled from the spec: `slab_hash_table::find` — walk the bucket's
chain from its head; newest entry for a key is found first. -/
def TState.find (s : TState) (k : List Nat) : Option (List Nat) :=
  findLoop s.slabs k (s.buckets (hashKey k % numberBuckets))
    (s.slabs.length + 1)

/-- Modelled from the spec: `slab_hash_table::store` — allocate a slab,
set its `next` to the current bucket head, write the payload via the
writer, then point the bucket at the new slab (prepending; an old slab
for the same key is not removed). -/
def TState.storeSlab (s : TState) (k : List Nat)
    (writer : Serializer → Serializer) : TState :=
  ⟨fun i => if i = hashKey k % numberBuckets then some s.slabs.length
      else s.buckets i,
    s.slabs ++
      [⟨s.buckets (hashKey k % numberBuckets), k, (writer ⟨[]⟩).buffer⟩]⟩

/-- `max_uint32` (external constant). -/
def maxUint32 : Nat := 2 ^ 32 - 1

/-- `max_size_t` on the 64-bit platform the store targets. -/
def maxSizeT : Nat := 2 ^ 64 - 1

/-- `transaction_database::store` (transaction_database.cpp:71):
asserts height and index each fit in 32 bits and that the value-size
arithmetic cannot overflow, then writes
`height(4B LE) | index(4B LE) | tx bytes` into a fresh slab keyed by
`tx.hash()`.  A failed `BITCOIN_ASSERT` is modelled as `none`. -/
def txStore (s : TState) (height txIdx : Nat) (tx : Tx) :
    Option TState :=
  if height ≤ maxUint32 then
    if txIdx ≤ maxUint32 then
      if tx.toData.length ≤ maxSizeT - 4 - 4 then
        some (s.storeSlab tx.hash (fun serial =>
          ((serial.write4LE height).write4LE txIdx).writeData tx.toData))
      else none
    else none
  else none

/-- `transaction_database::get` (transaction_database.cpp:65): look the
hash up; the result wraps the slab payload (or is a not-found view). -/
def txGet (s : TState) (hash : List Nat) : Option (List Nat) :=
  s.find hash

/-- Modelled from the spec: `transaction_result` lazy decode — height
`u32-LE` at offset 0 (spec §6 transaction record layout). -/
def resultHeight (payload : List Nat) : Nat :=
  leRead (payload.take 4)

/-- Modelled from the spec: `transaction_result` lazy decode — index
`u32-LE` at offset 4. -/
def resultIndex (payload : List Nat) : Nat :=
  leRead ((payload.drop 4).take 4)

/-- Modelled from the spec: `transaction_result` lazy decode — the
transaction's wire bytes from offset 8. -/
def resultTxData (payload : List Nat) : List Nat :=
  payload.drop 8

/-! ## Unspent-transaction value object -/

/-- `unspent_transaction` (unspent_transaction.cpp): height, coinbase
flag, hash, and the shared (`std::shared_ptr`) outputs map.  The
pointer is modelled as a heap cell id; `none` is a null/absent
pointer. -/
structure UnspentTransaction where
  height : Nat
  isCoinbase : Bool
  hash : List Nat
  outputs : Option Nat
deriving DecidableEq, Repr

/-- The map held by one `shared_ptr<output_map>` cell: output index to
output bytes. -/
def OutputMap : Type := List (Nat × List Nat)

/-- The heap of allocated `output_map` cells; a pointer is an index. -/
structure UtxHeap where
  cells : List OutputMap

/-- `std::make_shared<output_map>`: allocate a fresh cell. -/
def UtxHeap.alloc (hp : UtxHeap) (m : OutputMap) : UtxHeap × Nat :=
  (⟨hp.cells ++ [m]⟩, hp.cells.length)

/-- The hash-only constructor (unspent_transaction.cpp:48): height 0,
not coinbase, a freshly allocated empty outputs map. -/
def unspentFromHash (hp : UtxHeap) (h : List Nat) :
    UtxHeap × UnspentTransaction :=
  let (hp', ptr) := hp.alloc []
  (hp', ⟨0, false, h, some ptr⟩)

/-- The output-point constructor (unspent_transaction.cpp:56):
delegates to the hash constructor on the point's hash. -/
def unspentFromPoint (hp : UtxHeap) (p : Point) :
    UtxHeap × UnspentTransaction :=
  unspentFromHash hp p.hash

/-- The transaction constructor (unspent_transaction.cpp:61): copies
every output into a fresh index-keyed map; coinbase and hash come from
the transaction. -/
def unspentFromTx (hp : UtxHeap) (tx : Tx) (height : Nat) :
    UtxHeap × UnspentTransaction :=
  let (hp', ptr) := hp.alloc tx.outputs.enum
  (hp', ⟨height, tx.isCoinbase, tx.hash, some ptr⟩)

/-- `unspent_transaction::operator==` (unspent_transaction.cpp:98):
equality is the transaction hash alone. -/
def UnspentTransaction.eq (a b : UnspentTransaction) : Bool :=
  a.hash == b.hash

/-- The copy constructor (unspent_transaction.cpp:40): every field is
copied; copying `outputs_` copies the shared pointer, so both objects
refer to the same map cell. -/
def copyCtor (other : UnspentTransaction) : UnspentTransaction :=
  ⟨other.height, other.isCoinbase, other.hash, other.outputs⟩

/-- The move constructor (unspent_transaction.cpp:32): `hash_` is a
`std::array`, whose move leaves the source bytes unchanged, and
`outputs_` is initialized from `other.outputs_` by shared-pointer
*copy* (the source keeps its reference).  The pair is (new object,
source after the move). -/
def moveCtor (other : UnspentTransaction) :
    UnspentTransaction × UnspentTransaction :=
  (⟨other.height, other.isCoinbase, other.hash, other.outputs⟩, other)

/-- Copy assignment (unspent_transaction.cpp:113): fieldwise copy; the
shared pointer is copied. -/
def copyAssign (_dst other : UnspentTransaction) : UnspentTransaction :=
  ⟨other.height, other.isCoinbase, other.hash, other.outputs⟩

/-- Move assignment (unspent_transaction.cpp:103): as the move
constructor — `outputs_ = other.outputs_` is a shared-pointer copy, and
the source is left unchanged.  The pair is (assigned destination,
source after the move). -/
def moveAssign (_dst other : UnspentTransaction) :
    UnspentTransaction × UnspentTransaction :=
  (⟨other.height, other.isCoinbase, other.hash, other.outputs⟩, other)

/-- Storing a slab makes it the head of its key's bucket, so `find` on
that key returns the fresh payload. -/
theorem find_storeSlab_self (s : TState) (k : List Nat)
    (writer : Serializer → Serializer) :
    (s.storeSlab k writer).find k = some ((writer ⟨[]⟩).buffer) := by
  unfold TState.find TState.storeSlab
  simp only
  rw [if_pos trivial]
  simp only [findLoop]
  rw [List.get?_concat_length]
  simp

/-- A concrete transaction for the witnesses. -/
def txW : Tx := ⟨List.replicate 32 9, [171, 205], [], false⟩

/-- C1: storing `(height, index, tx)` and immediately looking up
`hash(tx)` finds a slab whose decode gives back the same height, the
same index, and the same serialized transaction bytes. -/
theorem c1_tx_store_roundtrip (s : TState) (height txIdx : Nat) (tx : Tx)
    (hh : height < 2 ^ 32) (hi : txIdx < 2 ^ 32)
    (hsz : tx.toData.length ≤ maxSizeT - 8) :
    ∃ s' payload, txStore s height txIdx tx = some s' ∧
      txGet s' tx.hash = some payload ∧
      resultHeight payload = height ∧
      resultIndex payload = txIdx ∧
      resultTxData payload = tx.toData := by
  have hg1 : height ≤ maxUint32 := by unfold maxUint32; omega
  have hg2 : txIdx ≤ maxUint32 := by unfold maxUint32; omega
  have hg3 : tx.toData.length ≤ maxSizeT - 4 - 4 := by
    unfold maxSizeT at hsz ⊢
    omega
  refine ⟨s.storeSlab tx.hash (fun serial =>
      ((serial.write4LE height).write4LE txIdx).writeData tx.toData),
    leBytes 4 height ++ (leBytes 4 txIdx ++ tx.toData), ?_, ?_, ?_, ?_, ?_⟩
  · unfold txStore
    rw [if_pos hg1, if_pos hg2, if_pos hg3]
  · unfold txGet
    rw [find_storeSlab_self]
    simp [Serializer.write4LE, Serializer.writeData]
  · unfold resultHeight
    rw [List.take_left' (leBytes_length 4 height), leRead_leBytes]
    rw [show (256 : Nat) ^ 4 = 2 ^ 32 by norm_num]
    exact Nat.mod_eq_of_lt hh
  · unfold resultIndex
    rw [List.drop_left' (leBytes_length 4 height),
      List.take_left' (leBytes_length 4 txIdx), leRead_leBytes]
    rw [show (256 : Nat) ^ 4 = 2 ^ 32 by norm_num]
    exact Nat.mod_eq_of_lt hi
  · unfold resultTxData
    rw [show leBytes 4 height ++ (leBytes 4 txIdx ++ tx.toData) =
      (leBytes 4 height ++ leBytes 4 txIdx) ++ tx.toData by simp]
    exact List.drop_left' (by simp [leBytes_length])

/-- Witness for C1 at the spec §8 scenario: height 100, index 2. -/
theorem c1_tx_store_roundtrip_witness :
    100 < 2 ^ 32 ∧ 2 < 2 ^ 32 ∧ txW.toData.length ≤ maxSizeT - 8 ∧
      ∃ s' payload, txStore TState.empty 100 2 txW = some s' ∧
        txGet s' txW.hash = some payload ∧
        resultHeight payload = 100 ∧
        resultIndex payload = 2 ∧
        resultTxData payload = txW.toData :=
  ⟨by norm_num, by norm_num, by norm_num [txW, maxSizeT],
    c1_tx_store_roundtrip TState.empty 100 2 txW (by norm_num)
      (by norm_num) (by norm_num [txW, maxSizeT])⟩

theorem readHeight_spendPayload (prev sp : Point) (sh : Nat)
    (hp : sp.hash.length = 32) :
    readHeight (spendPayload prev sp sh) = sh % 2 ^ 32 := by
  unfold readHeight
  have hg : spendPayload prev sp sh =
      (1 :: sp.toData) ++ (leBytes 4 sh ++ leBytes 8 prev.checksum) := by
    simp [spendPayload]
  rw [hg, List.drop_left' (by simp [toData_length hp]),
    List.take_left' (leBytes_length 4 sh), leRead_leBytes]
  norm_num

/-- C7 counterexample: `add_spend` with `spend_height = 2^32` does not
fail — it appends a row that `get` decodes with height `0`, the value
silently truncated to its low 32 bits. -/
theorem c7_counterexample_add_spend_truncates :
    (addSpend HState.empty keyW p1W s1W (2 ^ 32)).get keyW 0 0 =
      some [⟨PointKind.spend, s1W, 0, p1W.checksum⟩] ∧
    (0 : Nat) ≠ 2 ^ 32 := by
  constructor
  · decide
  · norm_num

/-- C7 (amended): the transaction store's `store` fails its assertion
when the height or the index exceeds 32 bits, but the history store's
`add_spend` performs no such check — it stores `spend_height` truncated
to its low 32 bits. -/
theorem c7_overflow_fatal_only_in_tx_store :
    (∀ (s : TState) (height txIdx : Nat) (tx : Tx),
      maxUint32 < height → txStore s height txIdx tx = none) ∧
    (∀ (s : TState) (height txIdx : Nat) (tx : Tx),
      maxUint32 < txIdx → txStore s height txIdx tx = none) ∧
    (∀ (s : HState) (k : List Nat) (prev sp : Point) (spendHeight : Nat),
      (addSpend s k prev sp spendHeight).rows.get? s.rows.length =
        some ⟨s.lookup k, spendPayload prev sp spendHeight⟩ ∧
      (sp.hash.length = 32 →
        readHeight (spendPayload prev sp spendHeight) =
          spendHeight % 2 ^ 32)) := by
  refine ⟨?_, ?_, ?_⟩
  · intro s height txIdx tx hh
    unfold txStore
    rw [if_neg (by omega)]
  · intro s height txIdx tx hi
    unfold txStore
    by_cases hh : height ≤ maxUint32
    · rw [if_pos hh, if_neg (by omega)]
    · rw [if_neg hh]
  · intro s k prev sp spendHeight
    constructor
    · rw [addSpend_eq]
      exact List.get?_concat_length s.rows _
    · intro hp
      exact readHeight_spendPayload prev sp spendHeight hp

/-- Witness for C7 at concrete overflowing inputs. -/
theorem c7_overflow_fatal_only_in_tx_store_witness :
    maxUint32 < 2 ^ 32 ∧ s1W.hash.length = 32 ∧
      txStore TState.empty (2 ^ 32) 0 txW = none ∧
      txStore TState.empty 0 (2 ^ 32) txW = none ∧
      readHeight (spendPayload p1W s1W (2 ^ 32)) = 2 ^ 32 % 2 ^ 32 :=
  ⟨by norm_num [maxUint32], by simp [s1W],
    (c7_overflow_fatal_only_in_tx_store).1 TState.empty (2 ^ 32) 0 txW
      (by norm_num [maxUint32]),
    (c7_overflow_fatal_only_in_tx_store).2.1 TState.empty 0 (2 ^ 32) txW
      (by norm_num [maxUint32]),
    ((c7_overflow_fatal_only_in_tx_store).2.2 HState.empty keyW p1W s1W
      (2 ^ 32)).2 (by simp [s1W])⟩

/-- C8: `unspent_transaction` equality is the transaction hash alone —
values built from transactions with the same hash compare equal
whatever their heights, outputs or coinbase flags, and values with
different hashes never compare equal. -/
theorem c8_identity_only_equality :
    (∀ a b : UnspentTransaction, a.eq b = true ↔ a.hash = b.hash) ∧
    (∀ (hp hp' : UtxHeap) (t1 t2 : Tx) (h1 h2 : Nat),
      ((unspentFromTx hp t1 h1).2.eq (unspentFromTx hp' t2 h2).2 = true ↔
        t1.hash = t2.hash)) := by
  constructor
  · intro a b
    simp [UnspentTransaction.eq]
  · intro hp hp' t1 t2 h1 h2
    simp [unspentFromTx, UnspentTransaction.eq, UtxHeap.alloc]

/-- Witness for C8: same hash, different height/coinbase/outputs
pointer — still equal. -/
theorem c8_identity_only_equality_witness :
    UnspentTransaction.eq ⟨0, false, List.replicate 32 5, none⟩
      ⟨9, true, List.replicate 32 5, some 3⟩ = true :=
  (c8_identity_only_equality.1 _ _).mpr rfl

/-- C9 counterexample: after move construction the source still holds
the same outputs pointer as the destination — ownership is not
transferred away from the source. -/
theorem c9_counterexample_move_shares :
    (moveCtor (unspentFromHash ⟨[]⟩ (List.replicate 32 4)).2).2.outputs =
      (moveCtor (unspentFromHash ⟨[]⟩ (List.replicate 32 4)).2).1.outputs ∧
    (moveCtor (unspentFromHash ⟨[]⟩ (List.replicate 32 4)).2).2.outputs ≠
      none := by
  constructor
  · rfl
  · simp [moveCtor, unspentFromHash, UtxHeap.alloc]

/-- C9 (amended): copy construction/assignment and move
construction/assignment all share the outputs map by copying the shared
pointer; no variant copies the map itself, and the move variants leave
the source object — including its outputs reference — unchanged. -/
theorem c9_copy_and_move_both_share_outputs :
    (∀ u : UnspentTransaction,
      (copyCtor u).outputs = u.outputs ∧
      (moveCtor u).1.outputs = u.outputs ∧
      (moveCtor u).2 = u) ∧
    (∀ d u : UnspentTransaction,
      (copyAssign d u).outputs = u.outputs ∧
      (moveAssign d u).1.outputs = u.outputs ∧
      (moveAssign d u).2 = u) :=
  ⟨fun _ => ⟨rfl, rfl, rfl⟩, fun _ _ => ⟨rfl, rfl, rfl⟩⟩

end BitcoinDb
